import Mathlib

/-!
# Verification of `educelab/libcore` object caching (`Caching.hpp`)

A shallow embedding of `include/educelab/core/utils/Caching.hpp`:

* `detail::LRUPolicy<KeyT, SizeT>` becomes `LRUPolicy`: its `entryList_`
  (a `std::list` with the most-recently-used entry at the front) is a
  `List (Key × Nat)`; `entryMap_` is only an O(1) index into that list and
  is not modelled separately.
* `ObjectCache<T, ...>` becomes `ObjectCache V`: its `cache_`
  (`std::unordered_map<key_type, CacheEntry>`) is an association list
  `List (Key × CacheEntry V)` with unique keys; `size_` and `capacity_`
  are `Nat` fields.  `std::size_t` keys and sizes are modelled as `Nat`
  (no claim concerns 64-bit wrap-around).
* Operations that can throw (`std::unordered_map::at`, reached from
  `get`, `find`, and the policy's `touch`/`erase`) or run into undefined
  behaviour (`entryList_.back()` on an empty list inside
  `LRUPolicy::clear(size)`) return `Option`, with `none` for the
  throwing/undefined outcome.
* The random key generator (`UniformIntegerKey`) and its collision-retry
  loop in `insert` are modelled by passing the stream of generated
  candidates explicitly as a `List Key` of draws.

The synchronization policies are lock bookkeeping only and have no
sequential semantics, so they do not appear in the model.
-/

namespace educelab

/-- The cache key type (`KeyT = std::size_t` at the default template arguments). -/
abbrev Key := Nat

/-- A lookup in an association list keyed by `Key`: the first entry with the
given key, mirroring `std::unordered_map::find`/`at`/`count` (which hold at
most one entry per key). -/
def alLookup {β : Type _} : List (Key × β) → Key → Option β
  | [], _ => none
  | en :: rest, k => if en.1 = k then some en.2 else alLookup rest k

/-- Removal of the first entry with the given key from an association list,
mirroring `std::unordered_map::erase`/`extract` and `std::list::erase` at the
iterator stored in the policy's key map (keys are unique in all reachable
states, so the first occurrence is the only one). -/
def alErase {β : Type _} : List (Key × β) → Key → List (Key × β)
  | [], _ => []
  | en :: rest, k => if en.1 = k then rest else en :: alErase rest k

/-- The state of `detail::LRUPolicy`: the entry list `entryList_`, with the
most-recently-used entry at the head and the least-recently-used at the end.
Each entry pairs a key with the declared size of the cached object. -/
structure LRUPolicy where
  entryList : List (Key × Nat)
deriving Repr, DecidableEq

/-- The `LRUPolicy::insert` member: `entryList_.emplace_front(key, size)`.
The `assert` that the key is not already tracked is a debug-mode contract;
the cache always calls it with a fresh key. -/
def LRUPolicy.insert (p : LRUPolicy) (key : Key) (size : Nat) : LRUPolicy :=
  ⟨(key, size) :: p.entryList⟩

/-- The `LRUPolicy::touch` member: `entryMap_.at(key)` (throws when the key is
untracked, hence `Option`) followed by a splice of that entry to the front of
the list. -/
def LRUPolicy.touch (p : LRUPolicy) (key : Key) : Option LRUPolicy :=
  match alLookup p.entryList key with
  | none => none
  | some s => some ⟨(key, s) :: alErase p.entryList key⟩

/-- The `LRUPolicy::erase` member: `entryMap_.at(key)` (throws when the key is
untracked), then erasure of that list entry and of the map entry. -/
def LRUPolicy.erase (p : LRUPolicy) (key : Key) : Option LRUPolicy :=
  match alLookup p.entryList key with
  | none => none
  | some _ => some ⟨alErase p.entryList key⟩

/-- The `while (total < size)` loop of `LRUPolicy::clear(size)`, acting on the
entry list in least-recently-used-first order (the loop pops `entryList_`
from the back).  The loop body reads `entryList_.back()` without checking for
emptiness, so running out of entries before `total` reaches `size` is
undefined behaviour, modelled as `none`. -/
def lruClearLoop (target : Nat) : Nat → List (Key × Nat) → Option (List Key × List (Key × Nat))
  | total, [] => if total < target then none else some ([], [])
  | total, e :: rest =>
    if total < target then
      match lruClearLoop target (total + e.2) rest with
      | none => none
      | some (ks, r) => some (e.1 :: ks, r)
    else some ([], e :: rest)

/-- The `LRUPolicy::clear(size)` member: walks from the least-recently-used
end of the entry list, accumulating victims until the accumulated size
reaches `size`, and returns the victim keys in pop order
(least-recently-used first) together with the remaining policy state. -/
def LRUPolicy.clear (p : LRUPolicy) (size : Nat) : Option (List Key × LRUPolicy) :=
  match lruClearLoop size 0 p.entryList.reverse with
  | none => none
  | some (ks, r) => some (ks, ⟨r.reverse⟩)

/-- The nullary `LRUPolicy::clear()` member: drops all tracked state. -/
def LRUPolicy.clearAll (_ : LRUPolicy) : LRUPolicy :=
  ⟨[]⟩

/-- The `ObjectCache::CacheEntry` record: a stored value and its declared
size in bytes. -/
structure CacheEntry (V : Type) where
  value : V
  size : Nat
deriving Repr, DecidableEq

/-- The state of `ObjectCache`: the key/value store `cache_`, the eviction
policy instance `policy_`, and the running byte counters `size_` and
`capacity_`. -/
structure ObjectCache (V : Type) where
  cache : List (Key × CacheEntry V)
  policy : LRUPolicy
  size : Nat
  capacity : Nat
deriving Repr, DecidableEq

/-- A default-constructed `ObjectCache`: empty store and policy, `size_{0}`,
`capacity_{10'000'000}`. -/
def ObjectCache.init (V : Type) : ObjectCache V :=
  ⟨[], ⟨[]⟩, 0, 10000000⟩

/-- The loop of the private `ObjectCache::clear_(size)` over the victim keys
returned by the policy: `cache_.extract(key)` for each key, accumulating the
extracted entries' sizes.  Calling `.mapped()` on the empty node handle of an
absent key is undefined behaviour, modelled as `none`. -/
def extractLoop {V : Type} : List (Key × CacheEntry V) → List Key → Option (List (Key × CacheEntry V) × Nat)
  | m, [] => some (m, 0)
  | m, k :: ks =>
    match alLookup m k with
    | none => none
    | some e =>
      match extractLoop (alErase m k) ks with
      | none => none
      | some (m', cleared) => some (m', e.size + cleared)

/-- The private `ObjectCache::clear_(size)` member: asks the policy for
victims, extracts them from the store, and subtracts the freed size. -/
def ObjectCache.clearSize {V : Type} (c : ObjectCache V) (size : Nat) : Option (Nat × ObjectCache V) :=
  match c.policy.clear size with
  | none => none
  | some (keys, p') =>
    match extractLoop c.cache keys with
    | none => none
    | some (m', cleared) => some (cleared, ⟨m', p', c.size - cleared, c.capacity⟩)

/-- The private nullary `ObjectCache::clear_()` member: records the freed
size, clears the store and the policy, and zeroes `size_`. -/
def ObjectCache.clearAll {V : Type} (c : ObjectCache V) : Nat × ObjectCache V :=
  (c.size, ⟨[], c.policy.clearAll, 0, c.capacity⟩)

/-- The `// Make space for new value` block of `ObjectCache::insert`:
when `size_ + size > capacity_`, evict `size_ + size - capacity_` bytes. -/
def ObjectCache.evictFor {V : Type} (c : ObjectCache V) (size : Nat) : Option (ObjectCache V) :=
  if c.size + size > c.capacity then
    match c.clearSize (c.size + size - c.capacity) with
    | none => none
    | some (_, c1) => some c1
  else some c

/-- The `do { key = gen(); } while (cache_.count(key) != 0)` retry loop of
`ObjectCache::insert`, over an explicit stream of generator draws: the first
draw that does not collide with a live key. -/
def genKey {V : Type} (m : List (Key × CacheEntry V)) : List Key → Option Key
  | [] => none
  | k :: draws =>
    match alLookup m k with
    | some _ => genKey m draws
    | none => some k

/-- The `ObjectCache::insert(value, size)` member: make space if the new
declared size would exceed capacity, draw a fresh key, record the entry in
the store and the policy, and grow `size_`. -/
def ObjectCache.insert {V : Type} (c : ObjectCache V) (value : V) (size : Nat) (draws : List Key) :
    Option (Key × ObjectCache V) :=
  match c.evictFor size with
  | none => none
  | some c1 =>
    match genKey c1.cache draws with
    | none => none
    | some key =>
      some (key, ⟨(key, ⟨value, size⟩) :: c1.cache, c1.policy.insert key size, c1.size + size, c1.capacity⟩)

/-- The `ObjectCache::contains` member: `cache_.count(key) == 1`, under a
trivial lock; it mutates nothing, which the pair-valued embedding records by
returning the state unchanged. -/
def ObjectCache.contains {V : Type} (c : ObjectCache V) (key : Key) : Bool × ObjectCache V :=
  ((alLookup c.cache key).isSome, c)

/-- The `ObjectCache::get` member: `cache_.at(key).value` (throws on an
absent key, hence `Option`), then `policy_.touch(key)`. -/
def ObjectCache.get {V : Type} (c : ObjectCache V) (key : Key) : Option (V × ObjectCache V) :=
  match alLookup c.cache key with
  | none => none
  | some e =>
    match c.policy.touch key with
    | none => none
    | some p' => some (e.value, ⟨c.cache, p', c.size, c.capacity⟩)

/-- The `ObjectCache::find` member: an empty optional when the key is absent
(no failure), otherwise the stored value after a policy touch. -/
def ObjectCache.find {V : Type} (c : ObjectCache V) (key : Key) : Option (Option V × ObjectCache V) :=
  match alLookup c.cache key with
  | none => some (none, c)
  | some e =>
    match c.policy.touch key with
    | none => none
    | some p' => some (some e.value, ⟨c.cache, p', c.size, c.capacity⟩)

/-- The `ObjectCache::erase` member: `0` with no other action when the key is
absent; otherwise extract the entry, erase it from the policy, shrink
`size_`, and return the entry's declared size. -/
def ObjectCache.erase {V : Type} (c : ObjectCache V) (key : Key) : Option (Nat × ObjectCache V) :=
  match alLookup c.cache key with
  | none => some (0, c)
  | some e =>
    match c.policy.erase key with
    | none => none
    | some p' => some (e.size, ⟨alErase c.cache key, p', c.size - e.size, c.capacity⟩)

/-- The `ObjectCache::set_capacity` member: update `capacity_`, then purge
`size_ - capacity` bytes when the current size exceeds the new capacity,
returning the freed size. -/
def ObjectCache.set_capacity {V : Type} (c : ObjectCache V) (capacity : Nat) : Option (Nat × ObjectCache V) :=
  if c.size > capacity then
    (ObjectCache.mk c.cache c.policy c.size capacity).clearSize (c.size - capacity)
  else some (0, ⟨c.cache, c.policy, c.size, capacity⟩)

/-- The `ObjectCache::count` member: `cache_.size()`. -/
def ObjectCache.count {V : Type} (c : ObjectCache V) : Nat :=
  c.cache.length

/-- The `ObjectCache::empty` member: `cache_.empty()`. -/
def ObjectCache.empty {V : Type} (c : ObjectCache V) : Bool :=
  c.cache.isEmpty

/-- A public API call on the cache, used to form operation sequences.
`Op.insert` carries the generator draws of its retry loop; `Op.clearAll` is
the nullary `clear()` and `Op.clearSize` is `clear(size)`. -/
inductive Op (V : Type) where
  | insert (value : V) (size : Nat) (draws : List Key)
  | get (key : Key)
  | find (key : Key)
  | contains (key : Key)
  | erase (key : Key)
  | clearAll
  | clearSize (size : Nat)
  | set_capacity (capacity : Nat)
deriving Repr, DecidableEq

/-- One public API call, returning the state after the call (`none` when the
call throws or hits undefined behaviour). -/
def ObjectCache.step {V : Type} (c : ObjectCache V) : Op V → Option (ObjectCache V)
  | .insert v s d => (c.insert v s d).map Prod.snd
  | .get k => (c.get k).map Prod.snd
  | .find k => (c.find k).map Prod.snd
  | .contains k => some (c.contains k).2
  | .erase k => (c.erase k).map Prod.snd
  | .clearAll => some c.clearAll.2
  | .clearSize s => (c.clearSize s).map Prod.snd
  | .set_capacity cap => (c.set_capacity cap).map Prod.snd

/-- A sequence of public API calls, run left to right. -/
def ObjectCache.run {V : Type} (c : ObjectCache V) : List (Op V) → Option (ObjectCache V)
  | [] => some c
  | op :: ops =>
    match c.step op with
    | none => none
    | some c' => c'.run ops

/-- A sequence of `insert` calls, collecting the returned keys in order. -/
def ObjectCache.runInserts {V : Type} (c : ObjectCache V) :
    List (V × Nat × List Key) → Option (List Key × ObjectCache V)
  | [] => some ([], c)
  | (v, s, d) :: rest =>
    match c.insert v s d with
    | none => none
    | some (k, c1) =>
      match c1.runInserts rest with
      | none => none
      | some (ks, c') => some (k :: ks, c')

/-- The total declared size of the entries of a store. -/
def sumSizes {V : Type} (m : List (Key × CacheEntry V)) : Nat :=
  (m.map (fun en => en.2.size)).sum

/-- A store, viewed as the (key, size) pairs the policy tracks. -/
def entryPairs {V : Type} (m : List (Key × CacheEntry V)) : List (Key × Nat) :=
  m.map (fun en => (en.1, en.2.size))

/-- Well-formedness of a cache state: store keys are unique, the policy
tracks exactly the store's keys with their declared sizes, and `size_` is
the sum of the declared sizes.  These hold in every state reachable through
the public API. -/
structure WF {V : Type} (c : ObjectCache V) : Prop where
  nodup : (c.cache.map Prod.fst).Nodup
  perm : c.policy.entryList.Perm (entryPairs c.cache)
  sizeEq : c.size = sumSizes c.cache

/-- The reachable-state invariant: well-formedness together with the
capacity bound `size_ <= capacity_`. -/
def Inv {V : Type} (c : ObjectCache V) : Prop :=
  WF c ∧ c.size ≤ c.capacity

/-- A small concrete cache state used to exercise the theorems: entries of
sizes 2 and 3 under keys 1 and 2 (most-recently-used first), total size 5,
capacity 10. -/
def exCache : ObjectCache Nat :=
  ⟨[(1, ⟨10, 2⟩), (2, ⟨20, 3⟩)], ⟨[(1, 2), (2, 3)]⟩, 5, 10⟩

/-! ## Association-list lemmas -/

theorem alLookup_eq_none_iff {β : Type _} {m : List (Key × β)} {k : Key} :
    alLookup m k = none ↔ k ∉ m.map Prod.fst := by
  induction m with
  | nil => simp [alLookup]
  | cons en rest ih =>
    simp only [alLookup, List.map_cons, List.mem_cons]
    by_cases h : en.1 = k
    · simp [h]
    · rw [if_neg h, ih]
      constructor
      · intro hn hor
        exact hor.elim (fun hk => h hk.symm) hn
      · intro hn hk
        exact hn (Or.inr hk)

theorem alLookup_isSome_iff {β : Type _} {m : List (Key × β)} {k : Key} :
    (alLookup m k).isSome = true ↔ k ∈ m.map Prod.fst := by
  rcases h : alLookup m k with _ | b
  · simp only [Option.isSome_none, Bool.false_eq_true, false_iff]
    exact alLookup_eq_none_iff.mp h
  · simp only [Option.isSome_some, true_iff]
    by_contra hk
    rw [alLookup_eq_none_iff.mpr hk] at h
    exact Option.noConfusion h

theorem alLookup_mem {β : Type _} {m : List (Key × β)} {k : Key} {b : β}
    (h : alLookup m k = some b) : (k, b) ∈ m := by
  induction m with
  | nil => exact absurd h (by simp [alLookup])
  | cons en rest ih =>
    simp only [alLookup] at h
    by_cases he : en.1 = k
    · rw [if_pos he] at h
      obtain rfl : en.2 = b := Option.some.inj h
      have hen : (k, en.2) = en := by rw [← he]
      rw [hen]
      exact List.mem_cons_self en rest
    · exact List.mem_cons_of_mem _ (ih (by rwa [if_neg he] at h))

theorem mem_alLookup_of_nodup {β : Type _} {m : List (Key × β)} {k : Key} {b : β}
    (hmem : (k, b) ∈ m) (hnd : (m.map Prod.fst).Nodup) : alLookup m k = some b := by
  induction m with
  | nil => exact absurd hmem (by simp)
  | cons en rest ih =>
    simp only [List.map_cons, List.nodup_cons] at hnd
    rcases List.mem_cons.mp hmem with h | h
    · simp [alLookup, ← h]
    · have hne : en.1 ≠ k := by
        intro he
        exact hnd.1 (he ▸ List.mem_map_of_mem Prod.fst h)
      simp [alLookup, hne, ih h hnd.2]

theorem alErase_sublist {β : Type _} (m : List (Key × β)) (k : Key) :
    (alErase m k).Sublist m := by
  induction m with
  | nil => simp [alErase]
  | cons en rest ih =>
    by_cases h : en.1 = k
    · simp only [alErase, if_pos h]
      exact List.sublist_cons_self en rest
    · simp only [alErase, if_neg h]
      exact List.Sublist.cons₂ en ih

theorem alLookup_alErase_ne {β : Type _} {m : List (Key × β)} {k k' : Key}
    (h : k' ≠ k) : alLookup (alErase m k) k' = alLookup m k' := by
  induction m with
  | nil => simp [alErase]
  | cons en rest ih =>
    by_cases he : en.1 = k
    · have hne : ¬en.1 = k' := fun hk => h (hk ▸ he)
      simp only [alErase, if_pos he, alLookup, if_neg hne]
    · simp only [alErase, if_neg he, alLookup]
      by_cases he' : en.1 = k'
      · rw [if_pos he', if_pos he']
      · rw [if_neg he', if_neg he', ih]

theorem alLookup_alErase_self {β : Type _} {m : List (Key × β)} {k : Key}
    (hnd : (m.map Prod.fst).Nodup) : alLookup (alErase m k) k = none := by
  induction m with
  | nil => simp [alErase, alLookup]
  | cons en rest ih =>
    simp only [List.map_cons, List.nodup_cons] at hnd
    by_cases he : en.1 = k
    · simp only [alErase, if_pos he, alLookup_eq_none_iff]
      exact fun hk => hnd.1 (he ▸ hk)
    · simp only [alErase, if_neg he, alLookup, if_neg he]
      exact ih hnd.2

theorem perm_cons_alErase {β : Type _} {m : List (Key × β)} {k : Key} {b : β}
    (h : alLookup m k = some b) : m.Perm ((k, b) :: alErase m k) := by
  induction m with
  | nil => exact absurd h (by simp [alLookup])
  | cons en rest ih =>
    simp only [alLookup] at h
    by_cases he : en.1 = k
    · rw [if_pos he] at h
      obtain rfl : en.2 = b := Option.some.inj h
      have hen : (k, en.2) = en := by rw [← he]
      simp only [alErase, if_pos he]
      rw [hen]
    · rw [if_neg he] at h
      simp only [alErase, if_neg he]
      exact ((ih h).cons en).trans (List.Perm.swap _ _ _)

theorem length_alErase {β : Type _} {m : List (Key × β)} {k : Key} {b : β}
    (h : alLookup m k = some b) : (alErase m k).length + 1 = m.length := by
  have h2 := (perm_cons_alErase h).length_eq
  simp only [List.length_cons] at h2
  omega

theorem alErase_map_snd {β γ : Type _} (f : β → γ) (m : List (Key × β)) (k : Key) :
    (alErase m k).map (fun en => (en.1, f en.2)) =
      alErase (m.map (fun en => (en.1, f en.2))) k := by
  induction m with
  | nil => simp [alErase]
  | cons en rest ih =>
    by_cases he : en.1 = k
    · simp [alErase, he]
    · simp [alErase, he, ih]

theorem alLookup_map_snd {β γ : Type _} (f : β → γ) (m : List (Key × β)) (k : Key) :
    alLookup (m.map (fun en => (en.1, f en.2))) k = (alLookup m k).map f := by
  induction m with
  | nil => simp [alLookup]
  | cons en rest ih =>
    by_cases he : en.1 = k
    · simp [alLookup, he]
    · simp [alLookup, he, ih]

theorem nodup_alErase {β : Type _} {m : List (Key × β)} (k : Key)
    (hnd : (m.map Prod.fst).Nodup) : ((alErase m k).map Prod.fst).Nodup :=
  ((alErase_sublist m k).map Prod.fst).nodup hnd

theorem mem_map_fst_iff {β : Type _} {m : List (Key × β)} {k : Key} :
    k ∈ m.map Prod.fst ↔ ∃ b, (k, b) ∈ m := by
  constructor
  · intro h
    obtain ⟨en, hen, hfst⟩ := List.mem_map.mp h
    exact ⟨en.2, by rwa [show (k, en.2) = en from Prod.ext hfst.symm rfl]⟩
  · rintro ⟨b, hb⟩
    exact List.mem_map_of_mem Prod.fst hb

theorem entryPairs_alErase {V : Type} (m : List (Key × CacheEntry V)) (k : Key) :
    entryPairs (alErase m k) = alErase (entryPairs m) k := by
  simp only [entryPairs]
  exact alErase_map_snd (fun e => e.size) m k

theorem alLookup_entryPairs {V : Type} (m : List (Key × CacheEntry V)) (k : Key) :
    alLookup (entryPairs m) k = (alLookup m k).map (fun e => e.size) := by
  simp only [entryPairs]
  exact alLookup_map_snd (fun e => e.size) m k

theorem sumSizes_eq_entryPairs_sum {V : Type} (m : List (Key × CacheEntry V)) :
    sumSizes m = ((entryPairs m).map Prod.snd).sum := by
  simp [sumSizes, entryPairs, List.map_map, Function.comp_def]

theorem nodup_entryPairs_fst {V : Type} {m : List (Key × CacheEntry V)}
    (h : (m.map Prod.fst).Nodup) : ((entryPairs m).map Prod.fst).Nodup := by
  simpa [entryPairs, Function.comp] using h

/-! ## The eviction loop of `LRUPolicy::clear(size)` -/

theorem lruClearLoop_none {target total : Nat} {lru : List (Key × Nat)}
    (h : total + (lru.map Prod.snd).sum < target) :
    lruClearLoop target total lru = none := by
  induction lru generalizing total with
  | nil =>
    simp only [List.map_nil, List.sum_nil, Nat.add_zero] at h
    simp only [lruClearLoop, if_pos h]
  | cons e rest ih =>
    simp only [List.map_cons, List.sum_cons] at h
    have hlt : total < target := by omega
    simp only [lruClearLoop, if_pos hlt]
    rw [ih (by omega)]

theorem lruClearLoop_some {target total : Nat} {lru : List (Key × Nat)}
    {ks : List Key} {r : List (Key × Nat)}
    (h : lruClearLoop target total lru = some (ks, r)) :
    ∃ pre, lru = pre ++ r ∧ ks = pre.map Prod.fst ∧
      target ≤ total + (pre.map Prod.snd).sum ∧
      ∀ n < pre.length, total + ((pre.take n).map Prod.snd).sum < target := by
  induction lru generalizing total ks with
  | nil =>
    simp only [lruClearLoop] at h
    by_cases hlt : total < target
    · rw [if_pos hlt] at h
      exact Option.noConfusion h
    · rw [if_neg hlt] at h
      simp only [Option.some_inj, Prod.mk.injEq] at h
      obtain ⟨rfl, rfl⟩ := h
      refine ⟨[], by simp, by simp, by simp; omega, by simp⟩
  | cons e rest ih =>
    simp only [lruClearLoop] at h
    by_cases hlt : total < target
    · rw [if_pos hlt] at h
      rcases hrec : lruClearLoop target (total + e.2) rest with _ | p
      · rw [hrec] at h
        exact Option.noConfusion h
      · obtain ⟨ks', r'⟩ := p
        simp only [hrec, Option.some_inj, Prod.mk.injEq] at h
        obtain ⟨rfl, rfl⟩ := h
        obtain ⟨pre, hpre, hkseq, hsum, hmin⟩ := ih hrec
        refine ⟨e :: pre, by simp [hpre], by simp [hkseq], ?_, ?_⟩
        · simp only [List.map_cons, List.sum_cons]
          omega
        · intro n hn
          match n with
          | 0 => simpa using hlt
          | n + 1 =>
            simp only [List.take_succ_cons, List.map_cons, List.sum_cons, ← Nat.add_assoc]
            exact hmin n (by simpa using hn)
    · rw [if_neg hlt] at h
      simp only [Option.some_inj, Prod.mk.injEq] at h
      obtain ⟨rfl, rfl⟩ := h
      refine ⟨[], by simp, by simp, by simp; omega, by simp⟩

theorem lruClearLoop_isSome {target total : Nat} {lru : List (Key × Nat)}
    (h : target ≤ total + (lru.map Prod.snd).sum) :
    ∃ out, lruClearLoop target total lru = some out := by
  induction lru generalizing total with
  | nil =>
    simp only [List.map_nil, List.sum_nil, Nat.add_zero] at h
    exact ⟨([], []), by simp only [lruClearLoop, if_neg (by omega : ¬total < target)]⟩
  | cons e rest ih =>
    by_cases hlt : total < target
    · simp only [List.map_cons, List.sum_cons] at h
      obtain ⟨⟨ks, r⟩, hout⟩ := @ih (total + e.2) (by omega)
      exact ⟨(e.1 :: ks, r), by simp only [lruClearLoop, if_pos hlt, hout]⟩
    · exact ⟨([], e :: rest), by simp only [lruClearLoop, if_neg hlt]⟩

/-! ## Extraction of policy victims from the store -/

theorem extractLoop_spec {V : Type} :
    ∀ (pre : List (Key × Nat)) (m : List (Key × CacheEntry V)) (q : List (Key × Nat)),
      (m.map Prod.fst).Nodup →
      (pre ++ q).Perm (entryPairs m) →
      ∃ m', extractLoop m (pre.map Prod.fst) = some (m', (pre.map Prod.snd).sum) ∧
        (m'.map Prod.fst).Nodup ∧ q.Perm (entryPairs m') ∧
        (∀ k, k ∉ pre.map Prod.fst → alLookup m' k = alLookup m k) ∧
        m'.length + pre.length = m.length := by
  intro pre
  induction pre with
  | nil =>
    intro m q hnd hperm
    exact ⟨m, by simp [extractLoop], hnd, by simpa using hperm, fun k _ => rfl, by simp⟩
  | cons e pre' ih =>
    intro m q hnd hperm
    obtain ⟨k, s⟩ := e
    have hmem : (k, s) ∈ entryPairs m := hperm.mem_iff.mp (by simp)
    have hndp : ((entryPairs m).map Prod.fst).Nodup := nodup_entryPairs_fst hnd
    have hlookp : alLookup (entryPairs m) k = some s := mem_alLookup_of_nodup hmem hndp
    obtain ⟨e0, hm, hsz⟩ : ∃ e0, alLookup m k = some e0 ∧ e0.size = s := by
      rw [alLookup_entryPairs] at hlookp
      rcases hm : alLookup m k with _ | e0
      · rw [hm] at hlookp
        exact Option.noConfusion hlookp
      · rw [hm] at hlookp
        exact ⟨e0, rfl, Option.some.inj hlookp⟩
    have hperm1 : (pre' ++ q).Perm (entryPairs (alErase m k)) := by
      rw [entryPairs_alErase]
      have h2 : ((k, s) :: (pre' ++ q)).Perm ((k, s) :: alErase (entryPairs m) k) :=
        hperm.trans (perm_cons_alErase hlookp)
      exact h2.cons_inv
    obtain ⟨m', hext, hnd', hperm', hframe, hlen⟩ :=
      ih (alErase m k) q (nodup_alErase k hnd) hperm1
    have hlen1 : (alErase m k).length + 1 = m.length := length_alErase hm
    refine ⟨m', ?_, hnd', hperm', ?_, by simp only [List.length_cons]; omega⟩
    · simp only [List.map_cons, extractLoop, hm, hext, List.sum_cons]
      simp [hsz]
    · intro k' hk'
      simp only [List.map_cons, List.mem_cons] at hk'
      push_neg at hk'
      rw [hframe k' hk'.2, alLookup_alErase_ne hk'.1]

theorem policy_sum {V : Type} {c : ObjectCache V} (hwf : WF c) :
    (c.policy.entryList.map Prod.snd).sum = c.size := by
  rw [hwf.sizeEq, sumSizes_eq_entryPairs_sum]
  exact (hwf.perm.map Prod.snd).sum_eq

/-- The behaviour of the private `clear_(size)` on a well-formed state:
well-formedness is preserved, at least the requested size (and at most the
current size) is freed, the byte counters are adjusted, and the evicted
policy entries are taken from the least-recently-used end of the list. -/
theorem clearSize_spec {V : Type} {c : ObjectCache V} {t cleared : Nat} {c' : ObjectCache V}
    (hwf : WF c) (h : c.clearSize t = some (cleared, c')) :
    WF c' ∧ t ≤ cleared ∧ cleared ≤ c.size ∧ c'.size = c.size - cleared ∧
      c'.capacity = c.capacity ∧
      (1 ≤ t → c'.cache.length < c.cache.length) ∧
      ∃ dropped, c.policy.entryList = c'.policy.entryList ++ dropped := by
  rcases hloop : lruClearLoop t 0 c.policy.entryList.reverse with _ | lp
  · simp only [ObjectCache.clearSize, LRUPolicy.clear, hloop] at h
    exact Option.noConfusion h
  obtain ⟨ks0, r⟩ := lp
  obtain ⟨pre, hpre, hkseq, hsum, hmin⟩ := lruClearLoop_some hloop
  have hentry : c.policy.entryList = r.reverse ++ pre.reverse := by
    have h2 := congrArg List.reverse hpre
    simpa [List.reverse_append] using h2
  have hq : (pre ++ r.reverse).Perm (entryPairs c.cache) := by
    refine List.Perm.trans ?_ hwf.perm
    rw [hentry]
    exact List.Perm.trans List.perm_append_comm
      (List.Perm.append_left _ (List.reverse_perm pre).symm)
  obtain ⟨m', hext, hnd', hperm', hframe, hlen⟩ :=
    extractLoop_spec pre c.cache r.reverse hwf.nodup hq
  subst hkseq
  simp only [ObjectCache.clearSize, LRUPolicy.clear, hloop, hext, Option.some_inj,
    Prod.mk.injEq] at h
  obtain ⟨rfl, rfl⟩ := h
  have hsizes : (pre.map Prod.snd).sum + ((r.reverse).map Prod.snd).sum = c.size := by
    have h3 := (hq.map Prod.snd).sum_eq
    simp only [List.map_append, List.sum_append] at h3
    rw [h3, ← sumSizes_eq_entryPairs_sum, hwf.sizeEq]
  have hsz' : sumSizes m' = ((r.reverse).map Prod.snd).sum := by
    rw [sumSizes_eq_entryPairs_sum]
    exact (hperm'.map Prod.snd).sum_eq.symm
  refine ⟨⟨hnd', hperm', ?_⟩, by omega, by omega, rfl, rfl, ?_, pre.reverse, hentry⟩
  · show c.size - (pre.map Prod.snd).sum = sumSizes m'
    omega
  · intro ht
    have hpre1 : 1 ≤ pre.length := by
      rcases pre with _ | ⟨e, pre'⟩
      · simp at hsum
        omega
      · simp
    show m'.length < c.cache.length
    omega

/-- The private `clear_(size)` succeeds on a well-formed state whenever the
requested size does not exceed the total tracked size. -/
theorem clearSize_isSome {V : Type} {c : ObjectCache V} (hwf : WF c) {t : Nat}
    (ht : t ≤ c.size) : ∃ out, c.clearSize t = some out := by
  have hsumrev : (c.policy.entryList.reverse.map Prod.snd).sum = c.size := by
    rw [List.map_reverse, List.sum_reverse]
    exact policy_sum hwf
  obtain ⟨⟨ks, r⟩, hloop⟩ :=
    @lruClearLoop_isSome t 0 c.policy.entryList.reverse (by omega)
  obtain ⟨pre, hpre, hkseq, hsum, hmin⟩ := lruClearLoop_some hloop
  have hentry : c.policy.entryList = r.reverse ++ pre.reverse := by
    have h2 := congrArg List.reverse hpre
    simpa [List.reverse_append] using h2
  have hq : (pre ++ r.reverse).Perm (entryPairs c.cache) := by
    refine List.Perm.trans ?_ hwf.perm
    rw [hentry]
    exact List.Perm.trans List.perm_append_comm
      (List.Perm.append_left _ (List.reverse_perm pre).symm)
  obtain ⟨m', hext, _, _, _, _⟩ := extractLoop_spec pre c.cache r.reverse hwf.nodup hq
  subst hkseq
  refine ⟨((pre.map Prod.snd).sum, ⟨m', ⟨r.reverse⟩, c.size - (pre.map Prod.snd).sum, c.capacity⟩), ?_⟩
  simp only [ObjectCache.clearSize, LRUPolicy.clear, hloop, hext]

/-! ## Behaviour of the public operations on well-formed states -/

theorem genKey_fresh {V : Type} {m : List (Key × CacheEntry V)} {draws : List Key} {k : Key}
    (h : genKey m draws = some k) : alLookup m k = none := by
  induction draws with
  | nil => exact absurd h (by simp [genKey])
  | cons d draws ih =>
    rcases hd : alLookup m d with _ | e
    · simp only [genKey, hd] at h
      obtain rfl := Option.some.inj h
      exact hd
    · simp only [genKey, hd] at h
      exact ih h

theorem evictFor_spec {V : Type} {c mid : ObjectCache V} {s : Nat}
    (hwf : WF c) (h : c.evictFor s = some mid) :
    WF mid ∧ mid.capacity = c.capacity ∧ mid.size + s ≤ c.capacity ∧
      (c.size + s ≤ c.capacity → mid = c) ∧
      (c.capacity < c.size + s → mid.cache.length < c.cache.length) := by
  by_cases hgt : c.size + s > c.capacity
  · rcases hcl : c.clearSize (c.size + s - c.capacity) with _ | p
    · simp only [ObjectCache.evictFor, if_pos hgt, hcl] at h
      exact Option.noConfusion h
    obtain ⟨cleared, mid'⟩ := p
    simp only [ObjectCache.evictFor, if_pos hgt, hcl, Option.some_inj] at h
    subst h
    obtain ⟨hwf', hge, hle, hsz, hcap, hlen, -⟩ := clearSize_spec hwf hcl
    exact ⟨hwf', hcap, by omega, fun hc => absurd hc (by omega), fun _ => hlen (by omega)⟩
  · simp only [ObjectCache.evictFor, if_neg hgt, Option.some_inj] at h
    subst h
    exact ⟨hwf, rfl, by omega, fun _ => rfl, fun hc => absurd hc (by omega)⟩

theorem insert_spec {V : Type} {c c1 : ObjectCache V} {v : V} {s : Nat} {d : List Key} {k : Key}
    (hwf : WF c) (h : c.insert v s d = some (k, c1)) :
    WF c1 ∧ c1.capacity = c.capacity ∧ c1.size ≤ c.capacity := by
  rcases hev : c.evictFor s with _ | mid
  · simp only [ObjectCache.insert, hev] at h
    exact Option.noConfusion h
  simp only [ObjectCache.insert, hev] at h
  rcases hg : genKey mid.cache d with _ | key
  · simp only [hg] at h
    exact Option.noConfusion h
  simp only [hg, Option.some_inj, Prod.ext_iff] at h
  obtain ⟨rfl, rfl⟩ := h
  obtain ⟨hwfm, hcap, hfit, -, -⟩ := evictFor_spec hwf hev
  have hnotmem : key ∉ mid.cache.map Prod.fst := alLookup_eq_none_iff.mp (genKey_fresh hg)
  refine ⟨⟨?_, ?_, ?_⟩, hcap, ?_⟩
  · show (((key, (⟨v, s⟩ : CacheEntry V)) :: mid.cache).map Prod.fst).Nodup
    simp only [List.map_cons, List.nodup_cons]
    exact ⟨hnotmem, hwfm.nodup⟩
  · show ((key, s) :: mid.policy.entryList).Perm (entryPairs ((key, ⟨v, s⟩) :: mid.cache))
    simpa [entryPairs] using hwfm.perm.cons (key, s)
  · show mid.size + s = sumSizes ((key, ⟨v, s⟩) :: mid.cache)
    have hs := hwfm.sizeEq
    simp only [sumSizes, List.map_cons, List.sum_cons] at hs ⊢
    omega
  · show mid.size + s ≤ c.capacity
    omega

theorem touch_perm {V : Type} {c : ObjectCache V} {k : Key} {p' : LRUPolicy}
    (hwf : WF c) (h : c.policy.touch k = some p') :
    p'.entryList.Perm (entryPairs c.cache) := by
  rcases hl : alLookup c.policy.entryList k with _ | s
  · simp only [LRUPolicy.touch, hl] at h
    exact Option.noConfusion h
  · simp only [LRUPolicy.touch, hl, Option.some_inj] at h
    subst h
    exact (perm_cons_alErase hl).symm.trans hwf.perm

theorem get_spec {V : Type} {c : ObjectCache V} {k : Key} {v : V} {c' : ObjectCache V}
    (hwf : WF c) (h : c.get k = some (v, c')) :
    WF c' ∧ c'.cache = c.cache ∧ c'.size = c.size ∧ c'.capacity = c.capacity := by
  rcases hl : alLookup c.cache k with _ | e
  · simp only [ObjectCache.get, hl] at h
    exact Option.noConfusion h
  rcases ht : c.policy.touch k with _ | p'
  · simp only [ObjectCache.get, hl, ht] at h
    exact Option.noConfusion h
  simp only [ObjectCache.get, hl, ht, Option.some_inj, Prod.ext_iff] at h
  obtain ⟨rfl, rfl⟩ := h
  have hperm2 : p'.entryList.Perm (entryPairs c.cache) := touch_perm hwf ht
  refine ⟨⟨hwf.nodup, ?_, hwf.sizeEq⟩, rfl, rfl, rfl⟩
  exact hperm2

theorem find_spec {V : Type} {c : ObjectCache V} {k : Key} {res : Option V} {c' : ObjectCache V}
    (hwf : WF c) (h : c.find k = some (res, c')) :
    WF c' ∧ c'.cache = c.cache ∧ c'.size = c.size ∧ c'.capacity = c.capacity := by
  rcases hl : alLookup c.cache k with _ | e
  · simp only [ObjectCache.find, hl, Option.some_inj, Prod.ext_iff] at h
    obtain ⟨rfl, rfl⟩ := h
    exact ⟨hwf, rfl, rfl, rfl⟩
  rcases ht : c.policy.touch k with _ | p'
  · simp only [ObjectCache.find, hl, ht] at h
    exact Option.noConfusion h
  simp only [ObjectCache.find, hl, ht, Option.some_inj, Prod.ext_iff] at h
  obtain ⟨rfl, rfl⟩ := h
  have hperm2 : p'.entryList.Perm (entryPairs c.cache) := touch_perm hwf ht
  refine ⟨⟨hwf.nodup, ?_, hwf.sizeEq⟩, rfl, rfl, rfl⟩
  exact hperm2

theorem policy_size_of_cache {V : Type} {c : ObjectCache V} (hwf : WF c) {k : Key}
    {e : CacheEntry V} (h : alLookup c.cache k = some e) :
    alLookup c.policy.entryList k = some e.size := by
  have hp : alLookup (entryPairs c.cache) k = some e.size := by
    rw [alLookup_entryPairs, h, Option.map_some']
  have hmem : (k, e.size) ∈ c.policy.entryList :=
    hwf.perm.mem_iff.mpr (alLookup_mem hp)
  have hnd : (c.policy.entryList.map Prod.fst).Nodup := by
    have := (hwf.perm.map Prod.fst).nodup_iff
    exact this.mpr (nodup_entryPairs_fst hwf.nodup)
  exact mem_alLookup_of_nodup hmem hnd

theorem erase_spec {V : Type} {c : ObjectCache V} {k : Key} {sz : Nat} {c' : ObjectCache V}
    (hwf : WF c) (h : c.erase k = some (sz, c')) :
    WF c' ∧ c'.capacity = c.capacity ∧ c'.size ≤ c.size := by
  rcases hl : alLookup c.cache k with _ | e
  · simp only [ObjectCache.erase, hl, Option.some_inj, Prod.ext_iff] at h
    obtain ⟨rfl, rfl⟩ := h
    exact ⟨hwf, rfl, le_refl _⟩
  have hpl : alLookup c.policy.entryList k = some e.size := policy_size_of_cache hwf hl
  simp only [ObjectCache.erase, hl, LRUPolicy.erase, hpl, Option.some_inj, Prod.ext_iff] at h
  obtain ⟨rfl, rfl⟩ := h
  have hperm' : (alErase c.policy.entryList k).Perm (entryPairs (alErase c.cache k)) := by
    rw [entryPairs_alErase]
    have h1 : c.policy.entryList.Perm ((k, e.size) :: alErase c.policy.entryList k) :=
      perm_cons_alErase hpl
    have h2 : (entryPairs c.cache).Perm ((k, e.size) :: alErase (entryPairs c.cache) k) :=
      perm_cons_alErase (by rw [alLookup_entryPairs, hl, Option.map_some'])
    exact (h1.symm.trans (hwf.perm.trans h2)).cons_inv
  have hsum : sumSizes c.cache = e.size + sumSizes (alErase c.cache k) := by
    have h2 := ((perm_cons_alErase hl).map (fun en => en.2.size)).sum_eq
    simpa [sumSizes] using h2
  refine ⟨⟨nodup_alErase k hwf.nodup, hperm', ?_⟩, rfl, by simp⟩
  show c.size - e.size = sumSizes (alErase c.cache k)
  have hs := hwf.sizeEq
  omega

theorem set_capacity_spec {V : Type} {c : ObjectCache V} (hwf : WF c) (cap : Nat) :
    ∃ freed c', c.set_capacity cap = some (freed, c') ∧ WF c' ∧ c'.capacity = cap ∧
      c'.size ≤ cap ∧ c.size = c'.size + freed ∧
      (∃ dropped, c.policy.entryList = c'.policy.entryList ++ dropped) ∧
      (c.size ≤ cap → freed = 0 ∧ c' = ⟨c.cache, c.policy, c.size, cap⟩) := by
  by_cases hgt : c.size > cap
  · have hwf1 : WF (ObjectCache.mk c.cache c.policy c.size cap) := ⟨hwf.nodup, hwf.perm, hwf.sizeEq⟩
    obtain ⟨⟨freed, c'⟩, hout⟩ := clearSize_isSome hwf1 (t := c.size - cap) (by simp)
    obtain ⟨hwf', hge, hle, hsz, hcap, -, hdrop⟩ := clearSize_spec hwf1 hout
    simp only at hge hle hsz hcap hdrop
    refine ⟨freed, c', ?_, hwf', by omega, by omega, by omega, hdrop, fun hc => absurd hc (by omega)⟩
    simp only [ObjectCache.set_capacity, if_pos hgt]
    exact hout
  · refine ⟨0, ⟨c.cache, c.policy, c.size, cap⟩, ?_, ⟨hwf.nodup, hwf.perm, hwf.sizeEq⟩,
      rfl, by simp; omega, by simp, ⟨[], by simp⟩, fun _ => ⟨rfl, rfl⟩⟩
    simp only [ObjectCache.set_capacity, if_neg hgt]

theorem Inv_init (V : Type) : Inv (ObjectCache.init V) := by
  refine ⟨⟨?_, ?_, ?_⟩, ?_⟩ <;> simp [ObjectCache.init, entryPairs, sumSizes]

theorem step_Inv {V : Type} {c c' : ObjectCache V} {op : Op V}
    (hinv : Inv c) (h : c.step op = some c') : Inv c' := by
  obtain ⟨hwf, hle⟩ := hinv
  cases op with
  | insert v s d =>
    rcases hins : c.insert v s d with _ | kc
    · simp only [ObjectCache.step, hins] at h
      exact Option.noConfusion h
    obtain ⟨k, c1⟩ := kc
    simp only [ObjectCache.step, hins, Option.map_some', Option.some_inj] at h
    subst h
    obtain ⟨hwf1, hcap, hsz⟩ := insert_spec hwf hins
    exact ⟨hwf1, by omega⟩
  | get k =>
    rcases hget : c.get k with _ | vc
    · simp only [ObjectCache.step, hget] at h
      exact Option.noConfusion h
    obtain ⟨v, c1⟩ := vc
    simp only [ObjectCache.step, hget, Option.map_some', Option.some_inj] at h
    subst h
    obtain ⟨hwf1, -, hs, hc⟩ := get_spec hwf hget
    exact ⟨hwf1, by omega⟩
  | find k =>
    rcases hf : c.find k with _ | vc
    · simp only [ObjectCache.step, hf] at h
      exact Option.noConfusion h
    obtain ⟨v, c1⟩ := vc
    simp only [ObjectCache.step, hf, Option.map_some', Option.some_inj] at h
    subst h
    obtain ⟨hwf1, -, hs, hc⟩ := find_spec hwf hf
    exact ⟨hwf1, by omega⟩
  | contains k =>
    simp only [ObjectCache.step, ObjectCache.contains, Option.some_inj] at h
    subst h
    exact ⟨hwf, hle⟩
  | erase k =>
    rcases he : c.erase k with _ | sc
    · simp only [ObjectCache.step, he] at h
      exact Option.noConfusion h
    obtain ⟨sz, c1⟩ := sc
    simp only [ObjectCache.step, he, Option.map_some', Option.some_inj] at h
    subst h
    obtain ⟨hwf1, hc, hs⟩ := erase_spec hwf he
    exact ⟨hwf1, by omega⟩
  | clearAll =>
    simp only [ObjectCache.step, ObjectCache.clearAll, Option.some_inj] at h
    subst h
    refine ⟨⟨?_, ?_, ?_⟩, ?_⟩ <;> simp [LRUPolicy.clearAll, entryPairs, sumSizes]
  | clearSize s =>
    rcases hcl : c.clearSize s with _ | sc
    · simp only [ObjectCache.step, hcl] at h
      exact Option.noConfusion h
    obtain ⟨sz, c1⟩ := sc
    simp only [ObjectCache.step, hcl, Option.map_some', Option.some_inj] at h
    subst h
    obtain ⟨hwf1, -, -, hs, hc, -, -⟩ := clearSize_spec hwf hcl
    exact ⟨hwf1, by omega⟩
  | set_capacity cap =>
    obtain ⟨freed, c1, hout, hwf1, hcap, hsz, -, -, -⟩ := set_capacity_spec hwf cap
    simp only [ObjectCache.step, hout, Option.map_some', Option.some_inj] at h
    subst h
    exact ⟨hwf1, by omega⟩

theorem run_Inv {V : Type} :
    ∀ (ops : List (Op V)) (c c' : ObjectCache V), Inv c → c.run ops = some c' → Inv c' := by
  intro ops
  induction ops with
  | nil =>
    intro c c' hinv h
    simp only [ObjectCache.run, Option.some_inj] at h
    exact h ▸ hinv
  | cons op ops ih =>
    intro c c' hinv h
    rcases hs : c.step op with _ | c1
    · simp only [ObjectCache.run, hs] at h
      exact Option.noConfusion h
    simp only [ObjectCache.run, hs] at h
    exact ih c1 c' (step_Inv hinv hs) h

/-! ## Claim theorems: constructor, contains, round trip -/

/-- Claim C10: a newly constructed `ObjectCache`, with no capacity set by the
caller, has `capacity() == 10000000`, `size() == 0`, `count() == 0`, and
`empty() == true`. -/
theorem c10_default_construction :
    (ObjectCache.init Nat).capacity = 10000000 ∧ (ObjectCache.init Nat).size = 0 ∧
      (ObjectCache.init Nat).count = 0 ∧ (ObjectCache.init Nat).empty = true := by
  decide

/-- Claim C9: `contains` is a pure lookup: it reports whether the key is live
and leaves the whole cache state (store, eviction order, size, capacity)
unchanged. -/
theorem c9_contains_pure {V : Type} (c : ObjectCache V) (k : Key) :
    (c.contains k).2 = c ∧ ((c.contains k).1 = true ↔ ∃ e, (k, e) ∈ c.cache) := by
  refine ⟨rfl, ?_⟩
  show (alLookup c.cache k).isSome = true ↔ _
  rw [alLookup_isSome_iff, mem_map_fst_iff]

/-- Claim C2: for every value `v` and size `s`, if `k = insert(v, s)`
completes and no eviction, erase, or clear intervenes, then `get(k)` returns
`v`. -/
theorem c2_insert_get_roundtrip {V : Type} (c : ObjectCache V) (v : V) (s : Nat)
    (d : List Key) (k : Key) (c1 : ObjectCache V)
    (h : c.insert v s d = some (k, c1)) : ∃ c2, c1.get k = some (v, c2) := by
  rcases hev : c.evictFor s with _ | mid
  · simp only [ObjectCache.insert, hev] at h
    exact Option.noConfusion h
  simp only [ObjectCache.insert, hev] at h
  rcases hg : genKey mid.cache d with _ | key
  · simp only [hg] at h
    exact Option.noConfusion h
  simp only [hg, Option.some_inj, Prod.ext_iff] at h
  obtain ⟨rfl, rfl⟩ := h
  refine ⟨⟨(key, ⟨v, s⟩) :: mid.cache,
    ⟨(key, s) :: alErase ((key, s) :: mid.policy.entryList) key⟩, mid.size + s, mid.capacity⟩, ?_⟩
  simp [ObjectCache.get, alLookup, LRUPolicy.touch, LRUPolicy.insert]

/-- Witness for C2 at a concrete input: inserting the value `7` with size `4`
into a fresh cache under generator draw `3` yields key `3`, and `get 3`
returns `7`. -/
theorem c2_witness :
    ∃ c2, (⟨[(3, ⟨7, 4⟩)], ⟨[(3, 4)]⟩, 4, 10000000⟩ : ObjectCache Nat).get 3 = some (7, c2) :=
  c2_insert_get_roundtrip (ObjectCache.init Nat) 7 4 [3] 3 _ (by decide)

theorem exCache_WF : WF exCache :=
  ⟨by decide, List.Perm.refl _, by decide⟩

/-- Claim C3: after any sequence of public operations run from a fresh
cache, `size()` equals the sum of the declared sizes of the stored entries
and `size() <= capacity()` holds; the allowance the claim makes for an
insert whose single declared size exceeds the capacity is never needed,
because such an insert never completes (see C1). -/
theorem c3_size_accounting {V : Type} (ops : List (Op V)) (c : ObjectCache V)
    (h : (ObjectCache.init V).run ops = some c) :
    c.size = sumSizes c.cache ∧ c.size ≤ c.capacity := by
  obtain ⟨hwf, hle⟩ := run_Inv ops _ c (Inv_init V) h
  exact ⟨hwf.sizeEq, hle⟩

/-- Witness for C3 on a concrete run: two inserts followed by an erase. -/
theorem c3_witness :
    (2 : Nat) = sumSizes [(8, (⟨6, 2⟩ : CacheEntry Nat))] ∧ (2 : Nat) ≤ 10000000 :=
  c3_size_accounting [Op.insert 5 4 [3], Op.insert 6 2 [3, 8], Op.erase 3]
    ⟨[(8, ⟨6, 2⟩)], ⟨[(8, 2)]⟩, 2, 10000000⟩ (by decide)

/-- Claim C8: `set_capacity(new_capacity)` updates the capacity; when the
current size exceeds the new capacity it evicts entries from the
least-recently-used end until `size() <= new_capacity`, returning the freed
byte count, and `0` with no other change when no eviction was needed. -/
theorem c8_set_capacity {V : Type} (c : ObjectCache V) (cap : Nat) (hwf : WF c) :
    ∃ freed c', c.set_capacity cap = some (freed, c') ∧ c'.capacity = cap ∧
      c'.size ≤ cap ∧ c.size = c'.size + freed ∧
      (∃ dropped, c.policy.entryList = c'.policy.entryList ++ dropped) ∧
      (c.size ≤ cap → freed = 0 ∧ c' = ⟨c.cache, c.policy, c.size, cap⟩) := by
  obtain ⟨freed, c', hout, -, hcap, hsz, hfs, hdrop, hnone⟩ := set_capacity_spec hwf cap
  exact ⟨freed, c', hout, hcap, hsz, hfs, hdrop, hnone⟩

/-- Witness for C8: shrinking the example cache's capacity from 10 to 3
succeeds, evicting down to the new capacity. -/
theorem c8_witness :
    ∃ freed c', exCache.set_capacity 3 = some (freed, c') ∧ c'.capacity = 3 ∧
      c'.size ≤ 3 ∧ exCache.size = c'.size + freed ∧
      (∃ dropped, exCache.policy.entryList = c'.policy.entryList ++ dropped) ∧
      (exCache.size ≤ 3 → freed = 0 ∧ c' = ⟨exCache.cache, exCache.policy, exCache.size, 3⟩) :=
  c8_set_capacity exCache 3 exCache_WF

/-- Claim C7: `erase` on an absent key returns `0` and leaves the entire
cache state unchanged; on a present key it removes exactly that entry and
returns its declared size, leaving every other entry in place. -/
theorem c7_erase {V : Type} (c : ObjectCache V) (k : Key) (hwf : WF c) :
    (alLookup c.cache k = none → c.erase k = some (0, c)) ∧
    (∀ e, alLookup c.cache k = some e → ∃ c', c.erase k = some (e.size, c') ∧
      alLookup c'.cache k = none ∧
      (∀ k2, k2 ≠ k → alLookup c'.cache k2 = alLookup c.cache k2) ∧
      c'.size = c.size - e.size ∧ c'.capacity = c.capacity) := by
  constructor
  · intro hl
    simp only [ObjectCache.erase, hl]
  · intro e hl
    have hpl : alLookup c.policy.entryList k = some e.size := policy_size_of_cache hwf hl
    refine ⟨⟨alErase c.cache k, ⟨alErase c.policy.entryList k⟩, c.size - e.size, c.capacity⟩,
      ?_, ?_, ?_, rfl, rfl⟩
    · simp only [ObjectCache.erase, hl, LRUPolicy.erase, hpl]
    · exact alLookup_alErase_self hwf.nodup
    · intro k2 hk2
      exact alLookup_alErase_ne hk2

/-- Witness for C7: erasing the absent key 5 from the example cache returns
0 and the unchanged cache; erasing the present key 2 removes it and returns
its size 3. -/
theorem c7_witness :
    exCache.erase 5 = some (0, exCache) ∧
      ∃ c', exCache.erase 2 = some ((⟨20, 3⟩ : CacheEntry Nat).size, c') ∧
        alLookup c'.cache 2 = none ∧
        (∀ k2, k2 ≠ 2 → alLookup c'.cache k2 = alLookup exCache.cache k2) ∧
        c'.size = exCache.size - (⟨20, 3⟩ : CacheEntry Nat).size ∧
        c'.capacity = exCache.capacity :=
  ⟨(c7_erase exCache 5 exCache_WF).1 (by decide),
   (c7_erase exCache 2 exCache_WF).2 ⟨20, 3⟩ (by decide)⟩

/-- Claim C6: `get` on an absent key fails with a lookup failure (`none`,
the out-of-range throw) while `find` on an absent key returns an empty
optional without failing; on a present key both return the stored value and
move its policy entry to the most-recently-used position. -/
theorem c6_get_find {V : Type} (c : ObjectCache V) (k : Key) (hwf : WF c) :
    (alLookup c.cache k = none → c.get k = none ∧ c.find k = some (none, c)) ∧
    (∀ e, alLookup c.cache k = some e → ∃ c', c.get k = some (e.value, c') ∧
      c.find k = some (some e.value, c') ∧
      c'.policy.entryList.head? = some (k, e.size) ∧
      c'.cache = c.cache ∧ c'.size = c.size ∧ c'.capacity = c.capacity) := by
  constructor
  · intro hl
    constructor
    · simp only [ObjectCache.get, hl]
    · simp only [ObjectCache.find, hl]
  · intro e hl
    have hpl : alLookup c.policy.entryList k = some e.size := policy_size_of_cache hwf hl
    have ht : c.policy.touch k = some ⟨(k, e.size) :: alErase c.policy.entryList k⟩ := by
      simp only [LRUPolicy.touch, hpl]
    refine ⟨⟨c.cache, ⟨(k, e.size) :: alErase c.policy.entryList k⟩, c.size, c.capacity⟩,
      ?_, ?_, rfl, rfl, rfl, rfl⟩
    · simp only [ObjectCache.get, hl, ht]
    · simp only [ObjectCache.find, hl, ht]

/-- Witness for C6: probing the absent key 7 and the present key 2 of the
example cache. -/
theorem c6_witness :
    (exCache.get 7 = none ∧ exCache.find 7 = some (none, exCache)) ∧
      ∃ c', exCache.get 2 = some ((⟨20, 3⟩ : CacheEntry Nat).value, c') ∧
        exCache.find 2 = some (some (⟨20, 3⟩ : CacheEntry Nat).value, c') ∧
        c'.policy.entryList.head? = some (2, (⟨20, 3⟩ : CacheEntry Nat).size) ∧
        c'.cache = exCache.cache ∧ c'.size = exCache.size ∧ c'.capacity = exCache.capacity :=
  ⟨(c6_get_find exCache 7 exCache_WF).1 (by decide),
   (c6_get_find exCache 2 exCache_WF).2 ⟨20, 3⟩ (by decide)⟩

/-- Claim C4: eviction removes victim keys in least-recently-used-first
order, accumulating whole entries until the requested size is reached: the
victims returned by `LRUPolicy::clear` are the shortest segment at the
least-recently-used end of the entry list whose sizes sum to at least the
target, in least-recently-used-first order.  Concretely, filling a
capacity-4 cache with four size-1 items and inserting a fifth evicts
exactly the least-recently-touched item, and touching an item via `get`
first promotes it, so the next eviction victim is the second-oldest item
instead. -/
theorem c4_lru_order :
    (∀ (p : LRUPolicy) (t : Nat) (ks : List Key) (p' : LRUPolicy),
      p.clear t = some (ks, p') →
      ∃ pre, p.entryList.reverse = pre ++ p'.entryList.reverse ∧
        ks = pre.map Prod.fst ∧ t ≤ (pre.map Prod.snd).sum ∧
        ∀ n < pre.length, ((pre.take n).map Prod.snd).sum < t) ∧
    (((ObjectCache.init Nat).run [Op.set_capacity 4, Op.insert 100 1 [1], Op.insert 200 1 [2],
        Op.insert 300 1 [3], Op.insert 400 1 [4], Op.insert 500 1 [5]]).map
        (fun c => ((c.contains 1).1, (c.contains 2).1, (c.contains 3).1, (c.contains 4).1,
          (c.contains 5).1)) = some (false, true, true, true, true)) ∧
    (((ObjectCache.init Nat).run [Op.set_capacity 4, Op.insert 100 1 [1], Op.insert 200 1 [2],
        Op.insert 300 1 [3], Op.insert 400 1 [4], Op.get 1, Op.insert 500 1 [5]]).map
        (fun c => ((c.contains 1).1, (c.contains 2).1, (c.contains 3).1, (c.contains 4).1,
          (c.contains 5).1)) = some (true, false, true, true, true)) := by
  refine ⟨?_, by decide, by decide⟩
  intro p t ks p' h
  rcases hloop : lruClearLoop t 0 p.entryList.reverse with _ | lp
  · simp only [LRUPolicy.clear, hloop] at h
    exact Option.noConfusion h
  obtain ⟨ks0, r⟩ := lp
  simp only [LRUPolicy.clear, hloop, Option.some_inj, Prod.mk.injEq] at h
  obtain ⟨rfl, rfl⟩ := h
  obtain ⟨pre, hpre, hkseq, hsum, hmin⟩ := lruClearLoop_some hloop
  refine ⟨pre, by simpa using hpre, hkseq, by simpa using hsum, fun n hn => by simpa using hmin n hn⟩

/-- Witness for C4's universally quantified part: clearing 2 bytes from a
policy holding sizes 2 (key 1, most recent) and 3 (key 2, least recent)
evicts exactly key 2. -/
theorem c4_witness :
    ∃ pre, (⟨[(1, 2), (2, 3)]⟩ : LRUPolicy).entryList.reverse =
        pre ++ (⟨[(1, 2)]⟩ : LRUPolicy).entryList.reverse ∧
      [2] = pre.map Prod.fst ∧ 2 ≤ (pre.map Prod.snd).sum ∧
      ∀ n < pre.length, ((pre.take n).map Prod.snd).sum < 2 :=
  c4_lru_order.1 ⟨[(1, 2), (2, 3)]⟩ 2 [2] ⟨[(1, 2)]⟩ (by decide)

/-- Counterexample to C1 as stated: inserting a value whose declared size
exceeds the capacity into a fresh empty cache does not complete and return
a key — the eviction loop reads the back of an exhausted entry list
(undefined behaviour, `none` in the model). -/
theorem c1_counterexample :
    (ObjectCache.init Nat).insert 0 10000001 [1] = none := by
  decide

/-- Claim C1 (amended): when the requested eviction target exceeds the total
size tracked by the policy — in particular for an insert whose declared size
cannot be fully freed by eviction — `LRUPolicy::clear` does not stop and
return fewer victims than requested: its loop pops an exhausted entry list
(undefined behaviour, modelled as `none`), and the insert does not
complete. -/
theorem c1_amended_oversized_insert_fails {V : Type} :
    (∀ (p : LRUPolicy) (t : Nat), (p.entryList.map Prod.snd).sum < t → p.clear t = none) ∧
    ∀ (c : ObjectCache V) (v : V) (s : Nat) (d : List Key),
      c.capacity < c.size + s →
      (c.policy.entryList.map Prod.snd).sum < c.size + s - c.capacity →
      c.insert v s d = none := by
  have hpol : ∀ (p : LRUPolicy) (t : Nat), (p.entryList.map Prod.snd).sum < t →
      p.clear t = none := by
    intro p t h
    have h2 : 0 + (p.entryList.reverse.map Prod.snd).sum < t := by
      rw [List.map_reverse, List.sum_reverse]
      omega
    simp only [LRUPolicy.clear, lruClearLoop_none h2]
  refine ⟨hpol, ?_⟩
  intro c v s d hgt hsum
  have hcl : c.policy.clear (c.size + s - c.capacity) = none := hpol _ _ hsum
  simp only [ObjectCache.insert, ObjectCache.evictFor, if_pos hgt, ObjectCache.clearSize, hcl]

/-- Witness for the amended C1: the empty policy cannot free 1 byte, and an
insert of declared size 10000001 into a fresh cache (capacity 10000000) does
not complete. -/
theorem c1_amended_witness :
    LRUPolicy.clear ⟨[]⟩ 1 = none ∧ (ObjectCache.init Nat).insert 7 10000001 [1] = none :=
  ⟨(c1_amended_oversized_insert_fails (V := Nat)).1 ⟨[]⟩ 1 (by decide),
   (c1_amended_oversized_insert_fails (V := Nat)).2 (ObjectCache.init Nat) 7 10000001 [1]
     (by decide) (by decide)⟩

/-! ## Key uniqueness across sequential inserts -/

theorem extractLoop_length {V : Type} :
    ∀ (ks : List Key) (m m' : List (Key × CacheEntry V)) (cl : Nat),
      extractLoop m ks = some (m', cl) → m'.length + ks.length = m.length := by
  intro ks
  induction ks with
  | nil =>
    intro m m' cl h
    simp only [extractLoop, Option.some_inj, Prod.mk.injEq] at h
    obtain ⟨rfl, rfl⟩ := h
    simp
  | cons k ks ih =>
    intro m m' cl h
    rcases hl : alLookup m k with _ | e
    · simp only [extractLoop, hl] at h
      exact Option.noConfusion h
    rcases hrec : extractLoop (alErase m k) ks with _ | p
    · simp only [extractLoop, hl, hrec] at h
      exact Option.noConfusion h
    obtain ⟨m2, cl2⟩ := p
    simp only [extractLoop, hl, hrec, Option.some_inj, Prod.mk.injEq] at h
    obtain ⟨rfl, rfl⟩ := h
    have h1 := ih (alErase m k) m2 cl2 hrec
    have h2 := length_alErase hl
    simp only [List.length_cons]
    omega

theorem clearSize_length {V : Type} {c : ObjectCache V} {t cl : Nat} {c' : ObjectCache V}
    (h : c.clearSize t = some (cl, c')) (ht : 1 ≤ t) : c'.cache.length < c.cache.length := by
  rcases hloop : lruClearLoop t 0 c.policy.entryList.reverse with _ | lp
  · simp only [ObjectCache.clearSize, LRUPolicy.clear, hloop] at h
    exact Option.noConfusion h
  obtain ⟨ks, r⟩ := lp
  rcases hext : extractLoop c.cache ks with _ | p
  · simp only [ObjectCache.clearSize, LRUPolicy.clear, hloop, hext] at h
    exact Option.noConfusion h
  obtain ⟨m', cl2⟩ := p
  simp only [ObjectCache.clearSize, LRUPolicy.clear, hloop, hext, Option.some_inj,
    Prod.mk.injEq] at h
  obtain ⟨rfl, rfl⟩ := h
  have hlen := extractLoop_length ks c.cache m' cl2 hext
  have hkslen : 1 ≤ ks.length := by
    obtain ⟨pre, hpre, hkseq, hsum, -⟩ := lruClearLoop_some hloop
    rcases pre with _ | ⟨e, pre'⟩
    · simp at hsum
      omega
    · simp [hkseq]
  show m'.length < c.cache.length
  omega

theorem insert_count {V : Type} {c c1 : ObjectCache V} {v : V} {s : Nat} {d : List Key} {k : Key}
    (h : c.insert v s d = some (k, c1)) :
    c1.cache.length ≤ c.cache.length + 1 ∧
      (c1.cache.length = c.cache.length + 1 →
        c1.cache = (k, ⟨v, s⟩) :: c.cache ∧ alLookup c.cache k = none) := by
  rcases hev : c.evictFor s with _ | mid
  · simp only [ObjectCache.insert, hev] at h
    exact Option.noConfusion h
  simp only [ObjectCache.insert, hev] at h
  rcases hg : genKey mid.cache d with _ | key
  · simp only [hg] at h
    exact Option.noConfusion h
  simp only [hg, Option.some_inj, Prod.ext_iff] at h
  obtain ⟨rfl, rfl⟩ := h
  by_cases hgt : c.size + s > c.capacity
  · rcases hcl : c.clearSize (c.size + s - c.capacity) with _ | p
    · simp only [ObjectCache.evictFor, if_pos hgt, hcl] at hev
      exact Option.noConfusion hev
    obtain ⟨cl, mid'⟩ := p
    simp only [ObjectCache.evictFor, if_pos hgt, hcl, Option.some_inj] at hev
    subst hev
    have hlt := clearSize_length hcl (by omega)
    constructor
    · show ((key, (⟨v, s⟩ : CacheEntry V)) :: mid'.cache).length ≤ c.cache.length + 1
      simp only [List.length_cons]
      omega
    · intro hc
      exfalso
      simp only [List.length_cons] at hc
      omega
  · simp only [ObjectCache.evictFor, if_neg hgt, Option.some_inj] at hev
    subst hev
    exact ⟨by simp, fun _ => ⟨rfl, genKey_fresh hg⟩⟩

theorem runInserts_count_le {V : Type} :
    ∀ (l : List (V × Nat × List Key)) (c : ObjectCache V) (ks : List Key) (c' : ObjectCache V),
      c.runInserts l = some (ks, c') → c'.cache.length ≤ c.cache.length + l.length := by
  intro l
  induction l with
  | nil =>
    intro c ks c' h
    simp only [ObjectCache.runInserts, Option.some_inj, Prod.mk.injEq] at h
    obtain ⟨rfl, rfl⟩ := h
    simp
  | cons x l ih =>
    intro c ks c' h
    obtain ⟨v, s, d⟩ := x
    rcases hins : c.insert v s d with _ | kc
    · simp only [ObjectCache.runInserts, hins] at h
      exact Option.noConfusion h
    obtain ⟨k, c1⟩ := kc
    rcases hrun : c1.runInserts l with _ | p
    · simp only [ObjectCache.runInserts, hins, hrun] at h
      exact Option.noConfusion h
    obtain ⟨ks1, c2⟩ := p
    simp only [ObjectCache.runInserts, hins, hrun, Option.some_inj, Prod.mk.injEq] at h
    obtain ⟨rfl, rfl⟩ := h
    have h1 := (insert_count hins).1
    have h2 := ih c1 ks1 c2 hrun
    simp only [List.length_cons]
    omega

theorem runInserts_frame {V : Type} :
    ∀ (l : List (V × Nat × List Key)) (c : ObjectCache V) (ks : List Key) (c' : ObjectCache V),
      c.runInserts l = some (ks, c') →
      c'.cache.length = c.cache.length + l.length →
      ∀ k2, alLookup c.cache k2 ≠ none → alLookup c'.cache k2 ≠ none ∧ k2 ∉ ks := by
  intro l
  induction l with
  | nil =>
    intro c ks c' h hcount k2 hk2
    simp only [ObjectCache.runInserts, Option.some_inj, Prod.mk.injEq] at h
    obtain ⟨rfl, rfl⟩ := h
    exact ⟨hk2, by simp⟩
  | cons x l ih =>
    intro c ks c' h hcount k2 hk2
    obtain ⟨v, s, d⟩ := x
    rcases hins : c.insert v s d with _ | kc
    · simp only [ObjectCache.runInserts, hins] at h
      exact Option.noConfusion h
    obtain ⟨k, c1⟩ := kc
    rcases hrun : c1.runInserts l with _ | p
    · simp only [ObjectCache.runInserts, hins, hrun] at h
      exact Option.noConfusion h
    obtain ⟨ks1, c2⟩ := p
    simp only [ObjectCache.runInserts, hins, hrun, Option.some_inj, Prod.mk.injEq] at h
    obtain ⟨rfl, rfl⟩ := h
    have h1 := (insert_count hins).1
    have h2 := runInserts_count_le l c1 ks1 c2 hrun
    simp only [List.length_cons] at hcount
    have hc1 : c1.cache.length = c.cache.length + 1 := by omega
    obtain ⟨hcache, hfresh⟩ := (insert_count hins).2 hc1
    have hne : k2 ≠ k := fun he => hk2 (he ▸ hfresh)
    have hlk1 : alLookup c1.cache k2 ≠ none := by
      rw [hcache]
      simp only [alLookup]
      by_cases hkk : k = k2
      · simp [hkk]
      · simpa [hkk] using hk2
    have h3 := ih c1 ks1 c2 hrun (by omega) k2 hlk1
    refine ⟨h3.1, ?_⟩
    simp only [List.mem_cons]
    push_neg
    exact ⟨hne, h3.2⟩

theorem runInserts_nodup {V : Type} :
    ∀ (l : List (V × Nat × List Key)) (c : ObjectCache V) (ks : List Key) (c' : ObjectCache V),
      (c.cache.map Prod.fst).Nodup →
      c.runInserts l = some (ks, c') →
      c'.cache.length = c.cache.length + l.length →
      ks.Nodup ∧ (c'.cache.map Prod.fst).Nodup := by
  intro l
  induction l with
  | nil =>
    intro c ks c' hnd h hcount
    simp only [ObjectCache.runInserts, Option.some_inj, Prod.mk.injEq] at h
    obtain ⟨rfl, rfl⟩ := h
    exact ⟨List.nodup_nil, hnd⟩
  | cons x l ih =>
    intro c ks c' hnd h hcount
    obtain ⟨v, s, d⟩ := x
    rcases hins : c.insert v s d with _ | kc
    · simp only [ObjectCache.runInserts, hins] at h
      exact Option.noConfusion h
    obtain ⟨k, c1⟩ := kc
    rcases hrun : c1.runInserts l with _ | p
    · simp only [ObjectCache.runInserts, hins, hrun] at h
      exact Option.noConfusion h
    obtain ⟨ks1, c2⟩ := p
    simp only [ObjectCache.runInserts, hins, hrun, Option.some_inj, Prod.mk.injEq] at h
    obtain ⟨rfl, rfl⟩ := h
    have h1 := (insert_count hins).1
    have h2 := runInserts_count_le l c1 ks1 c2 hrun
    simp only [List.length_cons] at hcount
    have hc1 : c1.cache.length = c.cache.length + 1 := by omega
    obtain ⟨hcache, hfresh⟩ := (insert_count hins).2 hc1
    have hnd1 : (c1.cache.map Prod.fst).Nodup := by
      rw [hcache]
      simp only [List.map_cons, List.nodup_cons]
      exact ⟨alLookup_eq_none_iff.mp hfresh, hnd⟩
    obtain ⟨hksnd, hnd'⟩ := ih c1 ks1 c2 hnd1 hrun (by omega)
    have hkmem : alLookup c1.cache k ≠ none := by
      rw [hcache]
      simp [alLookup]
    have hknotin : k ∉ ks1 := (runInserts_frame l c1 ks1 c2 hrun (by omega) k hkmem).2
    refine ⟨?_, hnd'⟩
    simp only [List.nodup_cons]
    exact ⟨hknotin, hksnd⟩

/-- Claim C5: no two live entries ever share a key — the store's keys stay
pairwise distinct under sequential inserts — and for `N` sequential inserts
whose entries are all still live (the entry count grew by exactly `N`), the
`N` returned keys are pairwise distinct. -/
theorem c5_unique_keys {V : Type} (c : ObjectCache V) (l : List (V × Nat × List Key))
    (ks : List Key) (c' : ObjectCache V)
    (hnd : (c.cache.map Prod.fst).Nodup)
    (h : c.runInserts l = some (ks, c'))
    (hcount : c'.count = c.count + l.length) :
    ks.Nodup ∧ (c'.cache.map Prod.fst).Nodup :=
  runInserts_nodup l c ks c' hnd h hcount

/-- Witness for C5: three sequential inserts into a fresh cache (the third
one retrying over two colliding draws) return the pairwise-distinct keys
1, 2, 7. -/
theorem c5_witness :
    ([1, 2, 7] : List Key).Nodup ∧
      ((⟨[(7, ⟨30, 1⟩), (2, ⟨20, 1⟩), (1, ⟨10, 1⟩)], ⟨[(7, 1), (2, 1), (1, 1)]⟩, 3, 10000000⟩ :
          ObjectCache Nat).cache.map Prod.fst).Nodup :=
  c5_unique_keys (ObjectCache.init Nat) [(10, 1, [1]), (20, 1, [2]), (30, 1, [1, 2, 7])]
    [1, 2, 7] _ (by decide) (by decide) (by decide)

end educelab
